import Mathlib

/-!
# Verification of the `bloom` package (a Bloom filter in Go)

Shallow embedding of `bloom.go`. Bytes are modelled as natural numbers
(stored values are below 256 in every reachable state); Go slices become
`List Nat`; Go `panic` in `New` becomes `Except String` (the spec's
ConfigurationError), the `errors.New` failure of `UnmarshalBinary` becomes
`Except String` (the spec's FormatError), and the run-time panics that
out-of-range indexing or short digests would cause in `Insert` /
`MaybeContains` become `Option` (`none` = panic).

`crypto/sha256` and `math/bits` are Go standard library, external to this
repository: the digest is modelled as an explicit function parameter
`sha256 : List Nat → List Nat` (a 32-byte digest of a byte string), and
`bits.OnesCount` is re-implemented as `onesCount` below.
-/

namespace Bloom

/-- A byte string: a list of byte values (each below 256 in Go). -/
abbrev Bytes := List Nat

/-- The Go struct `Filter { f []byte; k int }`.  `k` is nonnegative in every
state the Go API can produce (`New` forces 1..16, `UnmarshalBinary` stores a
byte 0..255, the zero value has 0), so it is modelled as `Nat`. -/
structure Filter where
  f : Bytes
  k : Nat
deriving DecidableEq, Repr

/-- `func (f *Filter) bit(n int) int`: the filter's nth bit,
`int(f.f[b]>>uint(i)) & 1` with `b, i := n/8, n%8`.  Go panics when `b` is out
of range; that is the `none` case. -/
def Filter.bit (fl : Filter) (n : Nat) : Option Nat :=
  (fl.f[n / 8]?).map fun b => (b >>> (n % 8)) &&& 1

/-- `func (f *Filter) setBit(n int)`: `f.f[b] |= 1 << uint(i)` with
`b, i := n/8, n%8`.  Go panics when `b` is out of range (`none`). -/
def Filter.setBit (fl : Filter) (n : Nat) : Option Filter :=
  (fl.f[n / 8]?).map fun b =>
    { fl with f := fl.f.set (n / 8) (b ||| (1 <<< (n % 8))) }

/-- `bits.OnesCount(uint(b))` from `math/bits` (external library): the number
of one bits in the binary representation.  Structural recursion on a fuel
argument (the number itself) so that it evaluates by kernel reduction. -/
def onesCountAux : Nat → Nat → Nat
  | 0, _ => 0
  | _ + 1, 0 => 0
  | fuel + 1, n + 1 => (n + 1) % 2 + onesCountAux fuel ((n + 1) / 2)

/-- `bits.OnesCount` of a natural number. -/
def onesCount (n : Nat) : Nat := onesCountAux n n

/-- `func New(b, k int) *Filter`.  The three `panic`s become `Except.error`
with the panic message (the spec's ConfigurationError).  Arguments are Go
`int`s, hence `Int`.  After the first check `b ∈ [1, 8192]`, so
`uint(b) = b.toNat`. -/
def New (b k : Int) : Except String Filter :=
  if b ≤ 0 ∨ 8192 < b then .error "New: Filter size out of range"
  else if onesCount b.toNat ≠ 1 then .error "New: Filter size not a power of 2"
  else if k ≤ 0 ∨ 16 < k then .error "New: Number of hash values out of range"
  else .ok ⟨List.replicate b.toNat 0, k.toNat⟩

/-- `binary.BigEndian.Uint16(hash[off:])` (from `encoding/binary`, external):
`uint16(b[1]) | uint16(b[0])<<8` on the slice starting at `off`.  Go panics
when fewer than two bytes remain (`none`). -/
def uint16BE (bs : Bytes) (off : Nat) : Option Nat :=
  match bs[off]?, bs[off + 1]? with
  | some hi, some lo => some ((hi <<< 8) ||| lo)
  | _, _ => none

/-- The loop body of `Insert`, iterated over the hash-value indices `h`:
`i := int(binary.BigEndian.Uint16(hash[2*h:])) & (len(f.f)*8 - 1); f.setBit(i)`.
(When `len(f.f) = 0` Go's mask is `-1` and `setBit` panics on any index;
here the mask truncates to `0` and `setBit` is likewise `none`, so the
observable outcome agrees.) -/
def insertLoop (hash : Bytes) : Filter → List Nat → Option Filter
  | fl, [] => some fl
  | fl, h :: hs => do
    let v ← uint16BE hash (2 * h)
    let g ← fl.setBit (v &&& (fl.f.length * 8 - 1))
    insertLoop hash g hs

/-- `func (f *Filter) Insert(item []byte)`: hashes `item` and runs the loop
for `h = 0, …, f.k-1`. -/
def Filter.Insert (sha256 : Bytes → Bytes) (fl : Filter) (item : Bytes) :
    Option Filter :=
  insertLoop (sha256 item) fl (List.range fl.k)

/-- The loop of `MaybeContains`: same candidate indices as `Insert`; returns
`false` at the first unset bit, `true` if all `k` bits are set. -/
def containsLoop (fl : Filter) (hash : Bytes) : List Nat → Option Bool
  | [] => some true
  | h :: hs => do
    let v ← uint16BE hash (2 * h)
    let b ← fl.bit (v &&& (fl.f.length * 8 - 1))
    if b = 0 then some false else containsLoop fl hash hs

/-- `func (f *Filter) MaybeContains(item []byte) bool`. -/
def Filter.MaybeContains (sha256 : Bytes → Bytes) (fl : Filter)
    (item : Bytes) : Option Bool :=
  containsLoop fl (sha256 item) (List.range fl.k)

/-- `func (f *Filter) MarshalBinary() (data []byte, err error)`:
`append(f.f, byte(f.k))`; the error is always nil.  `byte(f.k)` truncates
to `f.k % 256`. -/
def Filter.MarshalBinary (fl : Filter) : Bytes :=
  fl.f ++ [fl.k % 256]

/-- `func (f *Filter) UnmarshalBinary(data []byte) (err error)`: fails on an
empty slice, otherwise overwrites the receiver entirely with storage
`data[:l-1]` (a fresh copy) and `k = int(data[l-1])`; the result is the new
filter value. -/
def UnmarshalBinary (data : Bytes) : Except String Filter :=
  if data.length = 0 then .error "MarshalBinary: empty data slice"
  else .ok ⟨data.dropLast, data.getLastD 0⟩

/-- A sequence of `Insert` calls, one per item, left to right. -/
def insertAll (sha256 : Bytes → Bytes) : Filter → List Bytes → Option Filter
  | fl, [] => some fl
  | fl, x :: xs => do
    let g ← fl.Insert sha256 x
    insertAll sha256 g xs

/-- The `h`-th candidate bit index that `Insert`/`MaybeContains` derive for
`item` on filter `fl`: the `h`-th big-endian 16-bit group of the digest,
masked with `len(f.f)*8 - 1`.  Mirrors line 52 of `bloom.go`. -/
def candidateIdx (sha256 : Bytes → Bytes) (fl : Filter) (item : Bytes)
    (h : Nat) : Option Nat :=
  (uint16BE (sha256 item) (2 * h)).map (· &&& (fl.f.length * 8 - 1))

/-- The Go zero value of `Filter`: length-0 storage and `k = 0`
(`bloom.go` line 12). -/
def zeroValue : Filter := ⟨[], 0⟩

/-- A concrete instantiation of the digest parameter, used to evaluate the
operations on explicit inputs: the all-zero 32-byte digest. -/
def zeroHash : Bytes → Bytes := fun _ => List.replicate 32 0

/-! ## Bit-level helper lemmas -/

theorem lt_length_of_getElem? {α : Type} {l : List α} {i : Nat} {b : α}
    (h : l[i]? = some b) : i < l.length := by
  by_contra hge
  rw [List.getElem?_eq_none (Nat.le_of_not_lt hge)] at h
  cases h

theorem list_set_of_getElem? {α : Type} :
    ∀ (l : List α) (i : Nat) (b : α), l[i]? = some b → l.set i b = l
  | [], i, b, h => by cases h
  | a :: l, 0, b, h => by
    simp only [List.getElem?_cons_zero, Option.some.injEq] at h
    simp [h]
  | a :: l, i + 1, b, h => by
    simp only [List.getElem?_cons_succ] at h
    simp [list_set_of_getElem? l i b h]

/-- The extracted bit `(x >>> j) &&& 1` in terms of `Nat.testBit`. -/
theorem shift_and_one_eq (x j : Nat) :
    (x >>> j) &&& 1 = if x.testBit j then 1 else 0 := by
  rw [Nat.and_one_is_mod, Nat.shiftRight_eq_div_pow]
  rcases Nat.mod_two_eq_zero_or_one (x / 2 ^ j) with h | h <;>
    simp [Nat.testBit_to_div_mod, h]

theorem lor_shift_testBit_self (b j : Nat) :
    (b ||| (1 <<< j)).testBit j = true := by
  simp [Nat.shiftLeft_eq, Nat.testBit_lor, Nat.testBit_two_pow_self]

theorem lor_shift_testBit_ne (b j j' : Nat) (h : j' ≠ j) :
    (b ||| (1 <<< j)).testBit j' = b.testBit j' := by
  simp [Nat.shiftLeft_eq, Nat.testBit_lor,
    Nat.testBit_two_pow_of_ne (Ne.symm h)]

theorem lor_shift_of_testBit {b j : Nat} (h : b.testBit j = true) :
    b ||| (1 <<< j) = b := by
  apply Nat.eq_of_testBit_eq
  intro i
  by_cases hij : i = j
  · subst hij
    rw [lor_shift_testBit_self, h]
  · exact lor_shift_testBit_ne b j i hij

theorem eq_of_div_mod_eight {m n : Nat} (hdiv : m / 8 = n / 8)
    (hmod : m % 8 = n % 8) : m = n := by
  omega

/-! ## `setBit` lemmas -/

theorem setBit_eq {fl g : Filter} {n : Nat} (h : fl.setBit n = some g) :
    ∃ b, fl.f[n / 8]? = some b ∧
      g = { fl with f := fl.f.set (n / 8) (b ||| (1 <<< (n % 8))) } := by
  unfold Filter.setBit at h
  cases hb : fl.f[n / 8]? with
  | none => rw [hb] at h; cases h
  | some b =>
    rw [hb] at h
    exact ⟨b, rfl, (Option.some.inj h).symm⟩

theorem setBit_length {fl g : Filter} {n : Nat} (h : fl.setBit n = some g) :
    g.f.length = fl.f.length ∧ g.k = fl.k := by
  obtain ⟨b, _, rfl⟩ := setBit_eq h
  exact ⟨List.length_set .., rfl⟩

theorem bit_setBit_self {fl g : Filter} {n : Nat} (h : fl.setBit n = some g) :
    g.bit n = some 1 := by
  obtain ⟨b, hb, rfl⟩ := setBit_eq h
  have hlt : n / 8 < fl.f.length := lt_length_of_getElem? hb
  simp only [Filter.bit, List.getElem?_set_self hlt, Option.map_some',
    Option.some.injEq]
  rw [shift_and_one_eq, lor_shift_testBit_self]
  simp

theorem bit_setBit_ne {fl g : Filter} {n m : Nat} (h : fl.setBit n = some g)
    (hmn : m ≠ n) : g.bit m = fl.bit m := by
  obtain ⟨b, hb, rfl⟩ := setBit_eq h
  simp only [Filter.bit]
  by_cases hdiv : m / 8 = n / 8
  · have hmod : m % 8 ≠ n % 8 := fun hmod => hmn (eq_of_div_mod_eight hdiv hmod)
    have hlt : n / 8 < fl.f.length := lt_length_of_getElem? hb
    rw [hdiv, List.getElem?_set_self hlt, hb]
    simp only [Option.map_some', Option.some.injEq]
    rw [shift_and_one_eq, shift_and_one_eq, lor_shift_testBit_ne _ _ _ hmod]
  · rw [List.getElem?_set_ne fun he => hdiv he.symm]

theorem bit_setBit_mono {fl g : Filter} {n m : Nat}
    (h : fl.setBit n = some g) (hm : fl.bit m = some 1) :
    g.bit m = some 1 := by
  by_cases hmn : m = n
  · subst hmn; exact bit_setBit_self h
  · rw [bit_setBit_ne h hmn]; exact hm

theorem setBit_of_bit_one {fl : Filter} {n : Nat}
    (h : fl.bit n = some 1) : fl.setBit n = some fl := by
  unfold Filter.bit at h
  cases hb : fl.f[n / 8]? with
  | none => rw [hb] at h; cases h
  | some b =>
    rw [hb] at h
    simp only [Option.map_some', Option.some.injEq] at h
    rw [shift_and_one_eq] at h
    have htb : b.testBit (n % 8) = true := by
      by_contra hf
      rw [Bool.not_eq_true] at hf
      rw [hf] at h
      cases h
    unfold Filter.setBit
    rw [hb]
    simp only [Option.map_some', Option.some.injEq]
    rw [lor_shift_of_testBit htb, list_set_of_getElem? _ _ _ hb]

theorem bit_zero_or_one {fl : Filter} {n b : Nat}
    (h : fl.bit n = some b) : b = 0 ∨ b = 1 := by
  unfold Filter.bit at h
  cases hb : fl.f[n / 8]? with
  | none => rw [hb] at h; cases h
  | some x =>
    rw [hb] at h
    simp only [Option.map_some', Option.some.injEq] at h
    rw [shift_and_one_eq] at h
    split at h
    · right; omega
    · left; omega

/-! ## `insertLoop` and `containsLoop` lemmas -/

theorem insertLoop_cons {hash : Bytes} {fl g : Filter} {h : Nat}
    {hs : List Nat} :
    insertLoop hash fl (h :: hs) = some g ↔
      ∃ v g', uint16BE hash (2 * h) = some v ∧
        fl.setBit (v &&& (fl.f.length * 8 - 1)) = some g' ∧
        insertLoop hash g' hs = some g := by
  simp only [insertLoop, Option.bind_eq_some, bind, Option.bind_eq_some]
  constructor
  · rintro ⟨v, hv, g', hg', hrest⟩
    exact ⟨v, g', hv, hg', hrest⟩
  · rintro ⟨v, g', hv, hg', hrest⟩
    exact ⟨v, hv, g', hg', hrest⟩

theorem containsLoop_cons {fl : Filter} {hash : Bytes} {h : Nat}
    {hs : List Nat} {r : Bool} :
    containsLoop fl hash (h :: hs) = some r ↔
      ∃ v b, uint16BE hash (2 * h) = some v ∧
        fl.bit (v &&& (fl.f.length * 8 - 1)) = some b ∧
        (if b = 0 then some false else containsLoop fl hash hs) = some r := by
  simp only [containsLoop, Option.bind_eq_some, bind, Option.bind_eq_some]
  constructor
  · rintro ⟨v, hv, b, hb, hrest⟩
    exact ⟨v, b, hv, hb, hrest⟩
  · rintro ⟨v, b, hv, hb, hrest⟩
    exact ⟨v, hv, b, hb, hrest⟩

theorem insertLoop_length {hash : Bytes} :
    ∀ {hs : List Nat} {fl g : Filter}, insertLoop hash fl hs = some g →
      g.f.length = fl.f.length ∧ g.k = fl.k
  | [], fl, g, h => by
    cases Option.some.inj h
    exact ⟨rfl, rfl⟩
  | h :: hs, fl, g, hLoop => by
    obtain ⟨v, g', _, hset, hrest⟩ := insertLoop_cons.mp hLoop
    obtain ⟨hl1, hk1⟩ := setBit_length hset
    obtain ⟨hl2, hk2⟩ := insertLoop_length hrest
    exact ⟨hl2.trans hl1, hk2.trans hk1⟩

theorem insertLoop_bit_mono {hash : Bytes} :
    ∀ {hs : List Nat} {fl g : Filter}, insertLoop hash fl hs = some g →
      ∀ {m : Nat}, fl.bit m = some 1 → g.bit m = some 1
  | [], fl, g, h, m, hm => by
    cases Option.some.inj h
    exact hm
  | h :: hs, fl, g, hLoop, m, hm => by
    obtain ⟨v, g', _, hset, hrest⟩ := insertLoop_cons.mp hLoop
    exact insertLoop_bit_mono hrest (bit_setBit_mono hset hm)

/-- Every hash index processed by a successful `insertLoop` has its candidate
bit set in the result. -/
theorem insertLoop_sets {hash : Bytes} :
    ∀ {hs : List Nat} {fl g : Filter}, insertLoop hash fl hs = some g →
      ∀ h ∈ hs, ∃ v, uint16BE hash (2 * h) = some v ∧
        g.bit (v &&& (fl.f.length * 8 - 1)) = some 1
  | [], _, _, _, h, hmem => absurd hmem (List.not_mem_nil h)
  | h :: hs, fl, g, hLoop, h', hmem => by
    obtain ⟨v, g', hv, hset, hrest⟩ := insertLoop_cons.mp hLoop
    have hlen : g'.f.length = fl.f.length := (setBit_length hset).1
    rcases List.mem_cons.mp hmem with rfl | hmem'
    · exact ⟨v, hv, insertLoop_bit_mono hrest (bit_setBit_self hset)⟩
    · obtain ⟨w, hw, hbit⟩ := insertLoop_sets hrest h' hmem'
      rw [hlen] at hbit
      exact ⟨w, hw, hbit⟩

/-- Exact characterization of the bits of the filter produced by a successful
`insertLoop`: a bit is set iff it was set before or it is one of the masked
candidate indices of the processed hash positions. -/
theorem insertLoop_bit_iff {hash : Bytes} :
    ∀ {hs : List Nat} {fl g : Filter}, insertLoop hash fl hs = some g →
      ∀ n, (g.bit n = some 1 ↔ fl.bit n = some 1 ∨
        ∃ h ∈ hs, ∃ v, uint16BE hash (2 * h) = some v ∧
          n = v &&& (fl.f.length * 8 - 1))
  | [], fl, g, h, n => by
    cases Option.some.inj h
    simp
  | h :: hs, fl, g, hLoop, n => by
    obtain ⟨v, g', hv, hset, hrest⟩ := insertLoop_cons.mp hLoop
    have hlen : g'.f.length = fl.f.length := (setBit_length hset).1
    have ih := insertLoop_bit_iff hrest n
    rw [hlen] at ih
    have hstep : g'.bit n = some 1 ↔
        fl.bit n = some 1 ∨ n = v &&& (fl.f.length * 8 - 1) := by
      constructor
      · intro h1
        by_cases hn : n = v &&& (fl.f.length * 8 - 1)
        · exact Or.inr hn
        · exact Or.inl ((bit_setBit_ne hset hn) ▸ h1)
      · rintro (h1 | rfl)
        · exact bit_setBit_mono hset h1
        · exact bit_setBit_self hset
    rw [ih, hstep]
    constructor
    · rintro ((h1 | h1) | ⟨h', hmem, w, hw, hn⟩)
      · exact Or.inl h1
      · exact Or.inr ⟨h, List.mem_cons_self .., v, hv, h1⟩
      · exact Or.inr ⟨h', List.mem_cons_of_mem _ hmem, w, hw, hn⟩
    · rintro (h1 | ⟨h', hmem, w, hw, hn⟩)
      · exact Or.inl (Or.inl h1)
      · rcases List.mem_cons.mp hmem with rfl | hmem'
        · rw [hv] at hw
          cases Option.some.inj hw
          exact Or.inl (Or.inr hn)
        · exact Or.inr ⟨h', hmem', w, hw, hn⟩

/-- When every candidate bit is already set, `insertLoop` returns the filter
unchanged. -/
theorem insertLoop_already {hash : Bytes} :
    ∀ {hs : List Nat} {fl : Filter},
      (∀ h ∈ hs, ∃ v, uint16BE hash (2 * h) = some v ∧
        fl.bit (v &&& (fl.f.length * 8 - 1)) = some 1) →
      insertLoop hash fl hs = some fl
  | [], _, _ => rfl
  | h :: hs, fl, hall => by
    obtain ⟨v, hv, hbit⟩ := hall h (List.mem_cons_self ..)
    refine insertLoop_cons.mpr ⟨v, fl, hv, setBit_of_bit_one hbit, ?_⟩
    exact insertLoop_already fun h' hmem =>
      hall h' (List.mem_cons_of_mem _ hmem)

/-- When every candidate bit is set, `containsLoop` returns `true`. -/
theorem containsLoop_of_bits {fl : Filter} {hash : Bytes} :
    ∀ {hs : List Nat},
      (∀ h ∈ hs, ∃ v, uint16BE hash (2 * h) = some v ∧
        fl.bit (v &&& (fl.f.length * 8 - 1)) = some 1) →
      containsLoop fl hash hs = some true
  | [], _ => rfl
  | h :: hs, hall => by
    obtain ⟨v, hv, hbit⟩ := hall h (List.mem_cons_self ..)
    refine containsLoop_cons.mpr ⟨v, 1, hv, hbit, ?_⟩
    simp only [one_ne_zero, if_false]
    exact containsLoop_of_bits fun h' hmem =>
      hall h' (List.mem_cons_of_mem _ hmem)

/-- Conversely, `containsLoop` returning `true` means every candidate bit is
set. -/
theorem containsLoop_true_elim {fl : Filter} {hash : Bytes} :
    ∀ {hs : List Nat}, containsLoop fl hash hs = some true →
      ∀ h ∈ hs, ∃ v, uint16BE hash (2 * h) = some v ∧
        fl.bit (v &&& (fl.f.length * 8 - 1)) = some 1
  | [], _, h, hmem => absurd hmem (List.not_mem_nil h)
  | h :: hs, hLoop, h', hmem => by
    obtain ⟨v, b, hv, hb, hrest⟩ := containsLoop_cons.mp hLoop
    have hb1 : b = 1 := by
      rcases bit_zero_or_one hb with rfl | rfl
      · simp at hrest
      · rfl
    subst hb1
    simp only [one_ne_zero, if_false] at hrest
    rcases List.mem_cons.mp hmem with rfl | hmem'
    · exact ⟨v, hv, hb⟩
    · exact containsLoop_true_elim hrest h' hmem'

/-! ## `insertAll` lemmas -/

theorem insertAll_length {sha256 : Bytes → Bytes} :
    ∀ {ys : List Bytes} {fl g : Filter}, insertAll sha256 fl ys = some g →
      g.f.length = fl.f.length ∧ g.k = fl.k
  | [], fl, g, h => by
    cases Option.some.inj h
    exact ⟨rfl, rfl⟩
  | y :: ys, fl, g, h => by
    simp only [insertAll, Option.bind_eq_some, bind] at h
    obtain ⟨g', hg', hrest⟩ := h
    obtain ⟨hl1, hk1⟩ := insertLoop_length hg'
    obtain ⟨hl2, hk2⟩ := insertAll_length hrest
    exact ⟨hl2.trans hl1, hk2.trans hk1⟩

theorem insertAll_bit_mono {sha256 : Bytes → Bytes} :
    ∀ {ys : List Bytes} {fl g : Filter}, insertAll sha256 fl ys = some g →
      ∀ {m : Nat}, fl.bit m = some 1 → g.bit m = some 1
  | [], fl, g, h, m, hm => by
    cases Option.some.inj h
    exact hm
  | y :: ys, fl, g, h, m, hm => by
    simp only [insertAll, Option.bind_eq_some, bind] at h
    obtain ⟨g', hg', hrest⟩ := h
    exact insertAll_bit_mono hrest (insertLoop_bit_mono hg' hm)

/-! ## Claim theorems: codec and construction -/

/-- C9: `MarshalBinary` produces exactly the filter's bit storage bytes
followed by one trailing byte holding `k`, so the output length is
`sizeBytes + 1`; in particular the fresh size-1, `k = 1` filter encodes to
`[0x00, 0x01]`. -/
theorem marshal_format (fl : Filter) (hk : fl.k < 256) :
    fl.MarshalBinary = fl.f ++ [fl.k] ∧
    (fl.MarshalBinary).length = fl.f.length + 1 ∧
    (New 1 1).map Filter.MarshalBinary = .ok [0, 1] := by
  refine ⟨?_, ?_, rfl⟩
  · unfold Filter.MarshalBinary
    rw [Nat.mod_eq_of_lt hk]
  · unfold Filter.MarshalBinary
    simp

theorem marshal_format_witness :
    (⟨[0], 1⟩ : Filter).k < 256 ∧
    ((⟨[0], 1⟩ : Filter).MarshalBinary = (⟨[0], 1⟩ : Filter).f ++
        [(⟨[0], 1⟩ : Filter).k] ∧
      ((⟨[0], 1⟩ : Filter).MarshalBinary).length =
        (⟨[0], 1⟩ : Filter).f.length + 1 ∧
      (New 1 1).map Filter.MarshalBinary = .ok [0, 1]) :=
  ⟨by decide, marshal_format ⟨[0], 1⟩ (by decide)⟩

/-- C3: decoding the bytes produced by encoding a Filter (any storage, `k` in
[1, 16]) yields a Filter with exactly the same bit storage and `k`. -/
theorem decode_encode_roundtrip (fl : Filter) (hk1 : 1 ≤ fl.k)
    (hk16 : fl.k ≤ 16) :
    UnmarshalBinary fl.MarshalBinary = .ok ⟨fl.f, fl.k⟩ := by
  unfold Filter.MarshalBinary UnmarshalBinary
  rw [Nat.mod_eq_of_lt (by omega : fl.k < 256)]
  rw [if_neg (by simp)]
  rw [List.dropLast_concat, List.getLastD_concat]

theorem decode_encode_roundtrip_witness :
    1 ≤ (⟨[7], 2⟩ : Filter).k ∧ (⟨[7], 2⟩ : Filter).k ≤ 16 ∧
    UnmarshalBinary (⟨[7], 2⟩ : Filter).MarshalBinary = .ok ⟨[7], 2⟩ :=
  ⟨by decide, by decide,
    decode_encode_roundtrip ⟨[7], 2⟩ (by decide) (by decide)⟩

/-- C2 (counterexample): `UnmarshalBinary` does not validate its input beyond
emptiness.  An input of length 4 (`L-1 = 3`, not a power of two) and one whose
last byte is 17 (`k` out of range) are both accepted, refuting the claim that
decode fails on them. -/
theorem decode_no_validation :
    UnmarshalBinary [0, 0, 0, 0] = .ok ⟨[0, 0, 0], 0⟩ ∧
    UnmarshalBinary [0, 0, 17] = .ok ⟨[0, 0], 17⟩ :=
  ⟨rfl, rfl⟩

/-- C2 (amended): `UnmarshalBinary` fails exactly when the input is empty;
every non-empty input of length `L` is accepted, with storage the first `L-1`
bytes and `k` the last byte, even when `L-1` is not a power of two in
[1, 8192] or `k` is not in [1, 16]. -/
theorem decode_rejects_only_empty (data : Bytes) (hne : data ≠ []) :
    UnmarshalBinary data = .ok ⟨data.dropLast, data.getLastD 0⟩ ∧
    UnmarshalBinary [] = .error "MarshalBinary: empty data slice" := by
  refine ⟨?_, rfl⟩
  unfold UnmarshalBinary
  rw [if_neg fun h => hne (List.length_eq_zero.mp h)]

theorem decode_rejects_only_empty_witness :
    ([0, 0, 0, 0] : Bytes) ≠ [] ∧
    (UnmarshalBinary [0, 0, 0, 0] = .ok ⟨[0, 0, 0], 0⟩ ∧
      UnmarshalBinary [] = .error "MarshalBinary: empty data slice") :=
  ⟨by decide, decode_rejects_only_empty [0, 0, 0, 0] (by decide)⟩

/-- C5: `New` accepts `(1, 1)` and `(8192, 16)`, rejects `(0, 1)`, `(3, 1)`,
`(100, 1)`, `(4, 0)` and `(4, 17)` with a ConfigurationError naming the
violated invariant, and on success returns a filter whose storage is entirely
zero-filled. -/
theorem new_validates (b k : Int) (g : Filter) (hok : New b k = .ok g) :
    New 1 1 = .ok ⟨List.replicate 1 0, 1⟩ ∧
    New 8192 16 = .ok ⟨List.replicate 8192 0, 16⟩ ∧
    New 0 1 = .error "New: Filter size out of range" ∧
    New 3 1 = .error "New: Filter size not a power of 2" ∧
    New 100 1 = .error "New: Filter size not a power of 2" ∧
    New 4 0 = .error "New: Number of hash values out of range" ∧
    New 4 17 = .error "New: Number of hash values out of range" ∧
    g.f = List.replicate b.toNat 0 := by
  refine ⟨rfl, rfl, rfl, rfl, rfl, rfl, rfl, ?_⟩
  unfold New at hok
  split_ifs at hok
  injection hok with hg
  subst hg
  rfl

theorem new_validates_witness :
    New 1 1 = .ok ⟨List.replicate 1 0, 1⟩ ∧
    (New 1 1 = .ok ⟨List.replicate 1 0, 1⟩ ∧
      New 8192 16 = .ok ⟨List.replicate 8192 0, 16⟩ ∧
      New 0 1 = .error "New: Filter size out of range" ∧
      New 3 1 = .error "New: Filter size not a power of 2" ∧
      New 100 1 = .error "New: Filter size not a power of 2" ∧
      New 4 0 = .error "New: Number of hash values out of range" ∧
      New 4 17 = .error "New: Number of hash values out of range" ∧
      (⟨List.replicate 1 0, 1⟩ : Filter).f = List.replicate (1 : Int).toNat 0) :=
  ⟨rfl, new_validates 1 1 ⟨List.replicate 1 0, 1⟩ rfl⟩

/-- C6 (counterexample): on the Go zero-value filter (empty storage, `k = 0`)
both operations complete as ordinary successful calls — `Insert` is a no-op
and `MaybeContains` returns `true` — refuting the claim that they are
rejected. -/
theorem zero_filter_completes :
    Filter.Insert zeroHash zeroValue [97] = some zeroValue ∧
    Filter.MaybeContains zeroHash zeroValue [97] = some true :=
  ⟨rfl, rfl⟩

/-- C6 (amended): invoking `Insert` or `MaybeContains` on the unconstructed
zero-value filter is silently tolerated: since `k = 0` no candidate bit is
examined, `Insert` completes normally leaving the filter unchanged and
`MaybeContains` completes normally returning `true` (vacuously). -/
theorem zero_filter_tolerated (sha256 : Bytes → Bytes) (item : Bytes) :
    Filter.Insert sha256 zeroValue item = some zeroValue ∧
    Filter.MaybeContains sha256 zeroValue item = some true :=
  ⟨rfl, rfl⟩

/-! ## Claim theorems: filter operations -/

/-- C1: on a filter with valid parameters (size a power of two in [1, 8192]
bytes, `k` in [1, 16]), after `Insert x` the query `MaybeContains x` returns
`true`, and it still does after any further sequence of Inserts of other
items (no false negatives). -/
theorem insert_no_false_negatives (sha256 : Bytes → Bytes)
    (hsha : ∀ s, (sha256 s).length = 32) (fl : Filter)
    (hpow : ∃ m, fl.f.length = 2 ^ m) (hlo : 1 ≤ fl.f.length)
    (hhi : fl.f.length ≤ 8192) (hk1 : 1 ≤ fl.k) (hk16 : fl.k ≤ 16)
    (x : Bytes) (fl' : Filter) (hins : fl.Insert sha256 x = some fl')
    (ys : List Bytes) (g : Filter) (hall : insertAll sha256 fl' ys = some g) :
    fl'.MaybeContains sha256 x = some true ∧
    g.MaybeContains sha256 x = some true := by
  unfold Filter.Insert at hins
  obtain ⟨hlen', hk'⟩ := insertLoop_length hins
  obtain ⟨hleng, hkg⟩ := insertAll_length hall
  have hsets := insertLoop_sets hins
  constructor
  · unfold Filter.MaybeContains
    rw [hk']
    apply containsLoop_of_bits
    intro h hmem
    obtain ⟨v, hv, hbit⟩ := hsets h hmem
    rw [hlen']
    exact ⟨v, hv, hbit⟩
  · unfold Filter.MaybeContains
    rw [hkg, hk']
    apply containsLoop_of_bits
    intro h hmem
    obtain ⟨v, hv, hbit⟩ := hsets h hmem
    rw [hleng, hlen']
    exact ⟨v, hv, insertAll_bit_mono hall hbit⟩

theorem insert_no_false_negatives_witness :
    (∀ s, (zeroHash s).length = 32) ∧
    (∃ m, (⟨[0], 1⟩ : Filter).f.length = 2 ^ m) ∧
    1 ≤ (⟨[0], 1⟩ : Filter).f.length ∧
    (⟨[0], 1⟩ : Filter).f.length ≤ 8192 ∧
    1 ≤ (⟨[0], 1⟩ : Filter).k ∧ (⟨[0], 1⟩ : Filter).k ≤ 16 ∧
    Filter.Insert zeroHash ⟨[0], 1⟩ [] = some ⟨[1], 1⟩ ∧
    insertAll zeroHash ⟨[1], 1⟩ [[42]] = some ⟨[1], 1⟩ ∧
    (Filter.MaybeContains zeroHash ⟨[1], 1⟩ [] = some true ∧
      Filter.MaybeContains zeroHash ⟨[1], 1⟩ [] = some true) :=
  ⟨fun _ => rfl, ⟨0, rfl⟩, by decide, by decide, by decide, by decide,
    rfl, rfl,
    insert_no_false_negatives zeroHash (fun _ => rfl) ⟨[0], 1⟩ ⟨0, rfl⟩
      (by decide) (by decide) (by decide) (by decide) [] ⟨[1], 1⟩ rfl
      [[42]] ⟨[1], 1⟩ rfl⟩

/-- C4: on a filter whose size is a power of two with `k` in [1, 16],
`Insert` sets exactly the bits given by the first `k` big-endian 16-bit
groups of the digest, each masked with `sizeBytes*8 - 1`, and changes no
other bit: a bit is set afterwards iff it was set before or is one of those
masked candidates.  (For a 512-byte filter `sizeBytes*8 - 1 = 4095`.) -/
theorem insert_sets_exactly (sha256 : Bytes → Bytes)
    (hsha : ∀ s, (sha256 s).length = 32) (fl : Filter)
    (hpow : ∃ m, fl.f.length = 2 ^ m) (hk1 : 1 ≤ fl.k) (hk16 : fl.k ≤ 16)
    (x : Bytes) (fl' : Filter) (hins : fl.Insert sha256 x = some fl')
    (n : Nat) :
    fl'.bit n = some 1 ↔
      (fl.bit n = some 1 ∨ ∃ h < fl.k, candidateIdx sha256 fl x h = some n) := by
  unfold Filter.Insert at hins
  rw [insertLoop_bit_iff hins n]
  refine or_congr Iff.rfl ?_
  constructor
  · rintro ⟨h, hmem, v, hv, rfl⟩
    refine ⟨h, List.mem_range.mp hmem, ?_⟩
    rw [candidateIdx, hv]
    rfl
  · rintro ⟨h, hlt, hc⟩
    rw [candidateIdx] at hc
    obtain ⟨v, hv, hn⟩ := Option.map_eq_some'.mp hc
    exact ⟨h, List.mem_range.mpr hlt, v, hv, hn.symm⟩

theorem insert_sets_exactly_witness :
    (∀ s, (zeroHash s).length = 32) ∧
    (∃ m, (⟨[0], 1⟩ : Filter).f.length = 2 ^ m) ∧
    1 ≤ (⟨[0], 1⟩ : Filter).k ∧ (⟨[0], 1⟩ : Filter).k ≤ 16 ∧
    Filter.Insert zeroHash ⟨[0], 1⟩ [] = some ⟨[1], 1⟩ ∧
    (Filter.bit ⟨[1], 1⟩ 0 = some 1 ↔
      (Filter.bit ⟨[0], 1⟩ 0 = some 1 ∨
        ∃ h < (⟨[0], 1⟩ : Filter).k,
          candidateIdx zeroHash ⟨[0], 1⟩ [] h = some 0)) :=
  ⟨fun _ => rfl, ⟨0, rfl⟩, by decide, by decide, rfl,
    insert_sets_exactly zeroHash (fun _ => rfl) ⟨[0], 1⟩ ⟨0, rfl⟩
      (by decide) (by decide) [] ⟨[1], 1⟩ rfl 0⟩

/-- C7: `Insert` is idempotent — inserting the same byte string twice in
succession yields exactly the same bit storage (and filter state) as
inserting it once. -/
theorem insert_idempotent (sha256 : Bytes → Bytes) (fl : Filter)
    (hpow : ∃ m, fl.f.length = 2 ^ m) (hlo : 1 ≤ fl.f.length)
    (hhi : fl.f.length ≤ 8192) (hk1 : 1 ≤ fl.k) (hk16 : fl.k ≤ 16)
    (x : Bytes) (fl' fl'' : Filter)
    (h1 : fl.Insert sha256 x = some fl')
    (h2 : fl'.Insert sha256 x = some fl'') :
    fl'' = fl' := by
  unfold Filter.Insert at h1 h2
  obtain ⟨hlen, hk⟩ := insertLoop_length h1
  have hsets := insertLoop_sets h1
  rw [hk] at h2
  have halready : insertLoop (sha256 x) fl' (List.range fl.k) = some fl' := by
    apply insertLoop_already
    intro h hmem
    obtain ⟨v, hv, hbit⟩ := hsets h hmem
    rw [hlen]
    exact ⟨v, hv, hbit⟩
  rw [halready] at h2
  exact (Option.some.inj h2).symm

theorem insert_idempotent_witness :
    (∃ m, (⟨[0], 1⟩ : Filter).f.length = 2 ^ m) ∧
    1 ≤ (⟨[0], 1⟩ : Filter).f.length ∧
    (⟨[0], 1⟩ : Filter).f.length ≤ 8192 ∧
    1 ≤ (⟨[0], 1⟩ : Filter).k ∧ (⟨[0], 1⟩ : Filter).k ≤ 16 ∧
    Filter.Insert zeroHash ⟨[0], 1⟩ [] = some ⟨[1], 1⟩ ∧
    Filter.Insert zeroHash ⟨[1], 1⟩ [] = some ⟨[1], 1⟩ ∧
    (⟨[1], 1⟩ : Filter) = ⟨[1], 1⟩ :=
  ⟨⟨0, rfl⟩, by decide, by decide, by decide, by decide, rfl, rfl,
    insert_idempotent zeroHash ⟨[0], 1⟩ ⟨0, rfl⟩ (by decide) (by decide)
      (by decide) (by decide) [] ⟨[1], 1⟩ ⟨[1], 1⟩ rfl rfl⟩

/-- C8: `Insert` only ever sets bits, never clears any — every bit set before
an `Insert` remains set after it — and consequently a `MaybeContains` result
that was `true` stays `true` after any further sequence of Inserts. -/
theorem membership_monotone (sha256 : Bytes → Bytes) (fl fl' g : Filter)
    (x z : Bytes) (ys : List Bytes) (m : Nat)
    (hins : fl.Insert sha256 x = some fl') (hm : fl.bit m = some 1)
    (htrue : fl.MaybeContains sha256 z = some true)
    (hall : insertAll sha256 fl ys = some g) :
    fl'.bit m = some 1 ∧ g.MaybeContains sha256 z = some true := by
  unfold Filter.Insert at hins
  refine ⟨insertLoop_bit_mono hins hm, ?_⟩
  unfold Filter.MaybeContains at htrue ⊢
  obtain ⟨hleng, hkg⟩ := insertAll_length hall
  rw [hkg]
  apply containsLoop_of_bits
  intro h hmem
  obtain ⟨v, hv, hbit⟩ := containsLoop_true_elim htrue h hmem
  rw [hleng]
  exact ⟨v, hv, insertAll_bit_mono hall hbit⟩

theorem membership_monotone_witness :
    Filter.Insert zeroHash ⟨[1], 1⟩ [] = some ⟨[1], 1⟩ ∧
    Filter.bit ⟨[1], 1⟩ 0 = some 1 ∧
    Filter.MaybeContains zeroHash ⟨[1], 1⟩ [] = some true ∧
    insertAll zeroHash ⟨[1], 1⟩ [[3]] = some ⟨[1], 1⟩ ∧
    (Filter.bit ⟨[1], 1⟩ 0 = some 1 ∧
      Filter.MaybeContains zeroHash ⟨[1], 1⟩ [] = some true) :=
  ⟨rfl, rfl, rfl, rfl,
    membership_monotone zeroHash ⟨[1], 1⟩ ⟨[1], 1⟩ ⟨[1], 1⟩ [] [] [[3]] 0
      rfl rfl rfl rfl⟩

/-- C10: on a freshly constructed filter (all bits zero, `k ≥ 1`),
`MaybeContains` returns `false` for every item: the first candidate bit
examined is unset. -/
theorem fresh_filter_contains_false (sha256 : Bytes → Bytes)
    (hsha : ∀ s, (sha256 s).length = 32) (b k : Int) (g : Filter)
    (hnew : New b k = .ok g) (item : Bytes) :
    g.MaybeContains sha256 item = some false := by
  unfold New at hnew
  split_ifs at hnew with h1 h2 h3
  injection hnew with hg
  subst hg
  have hb1 : 1 ≤ b.toNat := by omega
  have hk1 : 1 ≤ k.toNat := by omega
  obtain ⟨m, hm⟩ : ∃ m, k.toNat = m + 1 := ⟨k.toNat - 1, by omega⟩
  have hl := hsha item
  have h0 : 0 < (sha256 item).length := by omega
  have h1' : 1 < (sha256 item).length := by omega
  obtain ⟨hi, hhi⟩ : ∃ v, (sha256 item)[0]? = some v :=
    ⟨_, List.getElem?_eq_getElem h0⟩
  obtain ⟨lo, hlo⟩ : ∃ v, (sha256 item)[1]? = some v :=
    ⟨_, List.getElem?_eq_getElem h1'⟩
  unfold Filter.MaybeContains
  simp only [hm, List.range_succ_eq_map]
  refine containsLoop_cons.mpr ⟨(hi <<< 8) ||| lo, 0, ?_, ?_, rfl⟩
  · simp [uint16BE, hhi, hlo]
  · have hflen :
        (Filter.mk (List.replicate b.toNat 0) k.toNat).f.length = b.toNat := by
      simp
    rw [hflen]
    have hle : ((hi <<< 8) ||| lo) &&& (b.toNat * 8 - 1) ≤ b.toNat * 8 - 1 :=
      Nat.and_le_right
    have hand : ((hi <<< 8) ||| lo) &&& (b.toNat * 8 - 1) < b.toNat * 8 := by
      omega
    have hdiv : (((hi <<< 8) ||| lo) &&& (b.toNat * 8 - 1)) / 8 < b.toNat :=
      (Nat.div_lt_iff_lt_mul (by omega)).mpr hand
    unfold Filter.bit
    rw [List.getElem?_replicate, if_pos hdiv]
    simp [Nat.zero_shiftRight]

theorem fresh_filter_contains_false_witness :
    (∀ s, (zeroHash s).length = 32) ∧
    New 1 1 = .ok ⟨List.replicate 1 0, 1⟩ ∧
    Filter.MaybeContains zeroHash ⟨List.replicate 1 0, 1⟩ [] = some false :=
  ⟨fun _ => rfl, rfl,
    fresh_filter_contains_false zeroHash (fun _ => rfl) 1 1
      ⟨List.replicate 1 0, 1⟩ rfl []⟩

end Bloom
